import Mathlib

/-!
# vtprotobuf gRPC codec: dispatch and buffer ownership

A shallow embedding of `codec/grpc/grpc_codec.go`.  The two methods of `Codec`
are state-passing functions over a `World` that records every pool borrow and
release and every call made to a collaborator.  Code that can panic returns an
`Exec`.

The collaborators of the source file that live in other packages (the message's
fast-path methods, the buffer pool, the pooling threshold, the fallback codec
and the codec registry lookup) are parameters.  The small data wrappers of the
`mem` package are modelled from the specification and say so.
-/

namespace VTCodec

/-! ## Go values -/

/-- One byte. -/
abbrev Byte := Fin 256

/-- Outcome of a piece of Go code: it returns a value or it panics. -/
inductive Exec (α : Type) where
  | ret (a : α)
  | panic
deriving DecidableEq

/-- A Go `[]byte`: its elements `s[0] .. s[len(s)-1]`, and the rest of the
backing array beyond the length, up to the capacity. -/
structure GoSlice where
  elems : List Byte
  spare : List Byte
deriving DecidableEq

/-- Length `len(s)`. -/
def GoSlice.len (s : GoSlice) : Nat := s.elems.length

/-- Capacity `cap(s)`. -/
def GoSlice.cap (s : GoSlice) : Nat := s.elems.length + s.spare.length

/-- The backing array from the start of the slice up to its capacity. -/
def GoSlice.arr (s : GoSlice) : List Byte := s.elems ++ s.spare

/-- Go `make([]byte, size)`: a zeroed slice of length and capacity `size`;
panics when `size` is negative. -/
def make (size : Int) : Exec GoSlice :=
  if size < 0 then .panic
  else .ret ⟨List.replicate size.toNat 0, []⟩

/-- Go `s[:hi]`: shares the backing array; panics unless `0 ≤ hi ≤ cap(s)`. -/
def GoSlice.upTo (s : GoSlice) (hi : Int) : Exec GoSlice :=
  if 0 ≤ hi ∧ hi ≤ (s.cap : Int) then
    .ret ⟨s.arr.take hi.toNat, s.arr.drop hi.toNat⟩
  else .panic

/-- What a callee that was handed the elements `old` leaves in them after
writing `out`: it can overwrite elements but not change how many there are. -/
def writeBack (old out : List Byte) : List Byte :=
  (out ++ old.drop out.length).take old.length

/-- The slice `s` after a callee that was handed `s[:n]` wrote `out` through
the shared backing array: same length and capacity, first `n` elements
overwritten. -/
def GoSlice.store (s : GoSlice) (n : Nat) (out : List Byte) : GoSlice :=
  let a := writeBack (s.arr.take n) out ++ s.arr.drop n
  ⟨a.take s.len, a.drop s.len⟩

/-- A Go `any` handed to the codec: either it satisfies the `vtProtoMessage`
type assertion or it does not. -/
inductive GoAny (M V : Type) where
  | vt (m : M)
  | other (v : V)
deriving DecidableEq

/-- The interface `vtProtoMessage` of the source: the three fast-path methods.
`MarshalToSizedBufferVT m data` gives the bytes written, the count returned and
the error; `UnmarshalVT m data` gives the receiver after the call and the
error. -/
structure vtProtoMessage (M E : Type) where
  MarshalToSizedBufferVT : M → List Byte → List Byte × Int × Option E
  UnmarshalVT : M → List Byte → M × Option E
  SizeVT : M → Int

/-! ## The `mem` package -/

/-- Modelled from the spec: `mem.Buffer`, a contiguous byte region plus its
provenance, either a transient allocation (`mem.SliceBuffer`) or a pool-borrowed
one, which carries the ticket of the borrow it came from. -/
inductive Buffer where
  | SliceBuffer (data : List Byte)
  | pooled (ticket : Nat) (data : List Byte)
deriving DecidableEq

/-- Modelled from the spec: `Buffer.ReadOnlyData`, the bytes of the region. -/
def Buffer.ReadOnlyData : Buffer → List Byte
  | .SliceBuffer data => data
  | .pooled _ data => data

/-- Modelled from the spec: `Buffer.Len`. -/
def Buffer.Len (b : Buffer) : Nat := b.ReadOnlyData.length

/-- Modelled from the spec: `mem.BufferSlice`, an ordered sequence of buffers
holding one logical payload. -/
abbrev BufferSlice := List Buffer

/-- Modelled from the spec: `BufferSlice.Len`, the total byte length. -/
def BufferSlice.Len (s : BufferSlice) : Nat := (s.map Buffer.Len).sum

/-- The bytes of the chunks, in order. -/
def BufferSlice.concat (s : BufferSlice) : List Byte :=
  (s.map Buffer.ReadOnlyData).flatten

/-- The explicit pool state: the size asked for by every borrow so far (the
position in the list is the ticket of that borrow) and the ticket of every
release so far. -/
structure PoolState where
  borrows : List Int
  releases : List Nat
deriving DecidableEq

/-- The `mem.BufferPool` behind `defaultBufferPool`: which slice a `Get`
hands out, given the pool state and the size asked for. -/
structure BufferPool where
  Get : PoolState → Int → GoSlice

/-- Modelled from the spec: `mem.IsBelowBufferPoolingThreshold`, the fixed
threshold function; a size is small when it is below the pooling threshold. -/
def IsBelowBufferPoolingThreshold (bufferPoolingThreshold size : Int) : Bool :=
  decide (size < bufferPoolingThreshold)

/-- A call the codec makes to a collaborator. -/
inductive Call (M V : Type) where
  | SizeVT (m : M)
  | MarshalToSizedBufferVT (m : M) (data : List Byte)
  | UnmarshalVT (m : M) (data : List Byte)
  | fallbackMarshal (v : GoAny M V)
  | fallbackUnmarshal (data : BufferSlice) (v : GoAny M V)
deriving DecidableEq

/-- Everything a call of the codec can change: the pool and the log of calls
to collaborators, oldest first. -/
structure World (M V : Type) where
  pool : PoolState
  calls : List (Call M V)
deriving DecidableEq

/-- Append a call to the log. -/
def World.record {M V : Type} (w : World M V) (c : Call M V) : World M V :=
  { w with calls := w.calls ++ [c] }

/-- The call `pool.Get(size)`: the slice handed out, its ticket, and the world
with the borrow recorded. -/
def World.Get {M V : Type} (w : World M V) (pool : BufferPool) (size : Int) :
    GoSlice × Nat × World M V :=
  (pool.Get w.pool size, w.pool.borrows.length,
    { w with pool := { w.pool with borrows := w.pool.borrows ++ [size] } })

/-- The call `pool.Put(buf)` for the buffer with this ticket. -/
def World.Put {M V : Type} (w : World M V) (ticket : Nat) : World M V :=
  { w with pool := { w.pool with releases := w.pool.releases ++ [ticket] } }

/-- Modelled from the spec: `mem.NewBuffer(buf, pool)`, the borrowed buffer
wrapped as a pool-sourced `Buffer` whose release goes back to the pool.  It is
handed `buf` itself, so the region is all `len(*buf)` bytes of it. -/
def NewBuffer (ticket : Nat) (buf : GoSlice) : Buffer :=
  .pooled ticket buf.elems

/-- Modelled from the spec: `BufferSlice.MaterializeToBuffer(pool)`, a single
contiguous pool-borrowed buffer holding the bytes of all chunks in order. -/
def MaterializeToBuffer {M V : Type} (pool : BufferPool) (w : World M V)
    (data : BufferSlice) : Buffer × World M V :=
  let (_, ticket, w1) := w.Get pool (BufferSlice.Len data)
  (.pooled ticket (BufferSlice.concat data), w1)

/-- Modelled from the spec: `Buffer.Free`, which releases a pool-borrowed
buffer back to the pool and does nothing for a transient one. -/
def Buffer.Free {M V : Type} (w : World M V) : Buffer → World M V
  | .SliceBuffer _ => w
  | .pooled ticket _ => w.Put ticket

/-! ## The codec -/

/-- The interface `encoding.CodecV2` as far as the codec uses its fallback:
`Marshal` gives the pair `(mem.BufferSlice, error)` (`none` is `nil`),
`Unmarshal` gives the value after the call and the error. -/
structure CodecV2 (M V E : Type) where
  Marshal : GoAny M V → Option BufferSlice × Option E
  Unmarshal : BufferSlice → GoAny M V → GoAny M V × Option E

/-- The package-level collaborators of the source file. -/
structure Env (M V E : Type) where
  msg : vtProtoMessage M E
  bufferPoolingThreshold : Int
  defaultBufferPool : BufferPool

/-- The constant `Name`. -/
def Name : String := "proto"

/-- The struct `Codec`: the fallback codec, which may be a nil interface. -/
structure Codec (M V E : Type) where
  fallback : Option (CodecV2 M V E)

/-- The method `Codec.Name`. -/
def Codec.Name {M V E : Type} (_c : Codec M V E) : String := VTCodec.Name

/-- The expression `m.MarshalToSizedBufferVT(buf[:size])`: slice, call, and the
state of `buf` after the callee wrote through the shared backing array. -/
def marshalInto {M V E : Type} (env : Env M V E) (w : World M V) (m : M)
    (buf : GoSlice) (size : Int) : World M V × Exec (GoSlice × Option E) :=
  match buf.upTo size with
  | .panic => (w, .panic)
  | .ret view =>
    let (out, _, err) := env.msg.MarshalToSizedBufferVT m view.elems
    (w.record (.MarshalToSizedBufferVT m view.elems),
      .ret (buf.store view.len out, err))

/-- The method `Codec.Marshal`. -/
def Codec.Marshal {M V E : Type} (env : Env M V E) (c : Codec M V E)
    (w : World M V) (v : GoAny M V) :
    World M V × Exec (Option BufferSlice × Option E) :=
  match v with
  | .vt m =>
    let size := env.msg.SizeVT m
    let w := w.record (.SizeVT m)
    if IsBelowBufferPoolingThreshold env.bufferPoolingThreshold size then
      match make size with
      | .panic => (w, .panic)
      | .ret buf =>
        match marshalInto env w m buf size with
        | (w, .panic) => (w, .panic)
        | (w, .ret (_, some err)) => (w, .ret (none, some err))
        | (w, .ret (buf, none)) => (w, .ret (some [.SliceBuffer buf.elems], none))
    else
      let (buf, ticket, w) := w.Get env.defaultBufferPool size
      match marshalInto env w m buf size with
      | (w, .panic) => (w, .panic)
      | (w, .ret (_, some err)) => (w.Put ticket, .ret (none, some err))
      | (w, .ret (buf, none)) => (w, .ret (some [NewBuffer ticket buf], none))
  | .other _ =>
    match c.fallback with
    | none => (w, .panic)
    | some f => (w.record (.fallbackMarshal v), .ret (f.Marshal v))

/-- The method `Codec.Unmarshal`; the deferred `buf.Free()` runs after the
fast-path call, whatever it reports. -/
def Codec.Unmarshal {M V E : Type} (env : Env M V E) (c : Codec M V E)
    (w : World M V) (data : BufferSlice) (v : GoAny M V) :
    World M V × Exec (GoAny M V × Option E) :=
  match v with
  | .vt m =>
    let (buf, w) := MaterializeToBuffer env.defaultBufferPool w data
    let (m1, err) := env.msg.UnmarshalVT m buf.ReadOnlyData
    let w := w.record (.UnmarshalVT m buf.ReadOnlyData)
    let w := buf.Free w
    (w, .ret (.vt m1, err))
  | .other _ =>
    match c.fallback with
    | none => (w, .panic)
    | some f => (w.record (.fallbackUnmarshal data v), .ret (f.Unmarshal data v))

/-- The function `init`: the codec handed to `encoding.RegisterCodecV2`, built
around whatever `encoding.GetCodecV2` finds under the name proto. -/
def init {M V E : Type} (GetCodecV2 : String → Option (CodecV2 M V E)) :
    Codec M V E :=
  { fallback := GetCodecV2 "proto" }

/-! ## Sample collaborators -/

/-- Three sample message types with the fast path: `Ping` with one field,
`Raw` whose wire form is its payload, and `Broken` whose marshal always
fails. -/
inductive Sample where
  | Ping (ID : Byte)
  | Raw (payload : List Byte)
  | Broken (size : Nat)
deriving DecidableEq

/-- The fast-path methods of the sample messages. -/
def sampleMsg : vtProtoMessage Sample String where
  SizeVT m :=
    match m with
    | .Ping _ => 2
    | .Raw p => p.length
    | .Broken n => n
  MarshalToSizedBufferVT m data :=
    match m with
    | .Ping id => if data.length = 2 then ([8, id], 2, none) else ([], 0, some "size")
    | .Raw p => if data.length = p.length then (p, p.length, none) else ([], 0, some "size")
    | .Broken _ => ([], 0, some "boom")
  UnmarshalVT m data :=
    match m, data with
    | .Ping _, [8, id] => (.Ping id, none)
    | .Ping id, _ => (.Ping id, some "malformed")
    | .Raw _, _ => (.Raw data, none)
    | .Broken n, _ => (.Broken n, some "boom")

/-- A pool whose `Get(n)` hands out a zeroed buffer of exactly `n` bytes. -/
def exactPool : BufferPool where
  Get _ size := ⟨List.replicate size.toNat 0, []⟩

/-- A pool whose `Get(n)` hands out a zeroed buffer of `n + 1` bytes. -/
def roomyPool : BufferPool where
  Get _ size := ⟨List.replicate (size.toNat + 1) 0, []⟩

/-- The sample environment: sample messages, threshold 1024, the given pool. -/
def sampleEnv (pool : BufferPool) : Env Sample Unit String :=
  { msg := sampleMsg, bufferPoolingThreshold := 1024, defaultBufferPool := pool }

/-- A sample message of 2048 bytes, twice the sample threshold. -/
def bigRaw : Sample := .Raw (List.replicate 2048 1)

/-- The world before any call. -/
def World.empty {M V : Type} : World M V := { pool := ⟨[], []⟩, calls := [] }

/-! ## Vocabulary of the statements -/

/-- The world after the size query and the fast-path marshal call. -/
def afterMarshalCall {M V : Type} (w : World M V) (m : M) (data : List Byte) :
    World M V :=
  (w.record (.SizeVT m)).record (.MarshalToSizedBufferVT m data)

/-- The slice the pool hands out when `Marshal` borrows for message `m`. -/
def borrowed {M V E : Type} (env : Env M V E) (w : World M V) (m : M) : GoSlice :=
  env.defaultBufferPool.Get w.pool (env.msg.SizeVT m)

/-- The elements of `(*buf)[:size]` before the fast-path marshal call. -/
def borrowedView {M V E : Type} (env : Env M V E) (w : World M V) (m : M) :
    List Byte :=
  (borrowed env w m).arr.take (env.msg.SizeVT m).toNat

/-- The world after the size query, the borrow and the fast-path marshal call. -/
def afterBorrowAndCall {M V E : Type} (env : Env M V E) (w : World M V) (m : M) :
    World M V :=
  { pool := { borrows := w.pool.borrows ++ [env.msg.SizeVT m],
              releases := w.pool.releases },
    calls := w.calls ++ [.SizeVT m, .MarshalToSizedBufferVT m (borrowedView env w m)] }

/-- The buffer `Marshal` hands to the fast-path marshal function: the fresh
zeroed allocation on the small-size path, `(*buf)[:size]` of the borrowed
buffer on the large-size path. -/
def marshalArg {M V E : Type} (env : Env M V E) (w : World M V) (m : M) : List Byte :=
  if env.msg.SizeVT m < env.bufferPoolingThreshold then
    List.replicate (env.msg.SizeVT m).toNat 0
  else borrowedView env w m

/-- The pool contract of the specification: `Get(n)` hands out a buffer of at
least `n` bytes. -/
def BufferPool.AtLeast (p : BufferPool) : Prop :=
  ∀ (st : PoolState) (n : Int), 0 ≤ n → n ≤ ((p.Get st n).len : Int)

/-- A self-consistent capability at message `m`: on every buffer of exactly
`SizeVT()` bytes the marshal function succeeds, and the unmarshal function
applied to the bytes it wrote, on the destination `fresh`, yields `m`. -/
def SelfConsistent {M E : Type} (msg : vtProtoMessage M E) (m fresh : M) : Prop :=
  0 ≤ msg.SizeVT m ∧
  ∀ data : List Byte, (data.length : Int) = msg.SizeVT m →
    (msg.MarshalToSizedBufferVT m data).2.2 = none ∧
    msg.UnmarshalVT fresh (writeBack data (msg.MarshalToSizedBufferVT m data).1)
      = (m, none)

/-- A run of fast-path `Unmarshal` calls, one per request, threading the
world. -/
def unmarshalAll {M V E : Type} (env : Env M V E) (c : Codec M V E) (w : World M V) :
    List (BufferSlice × M) → World M V
  | [] => w
  | (data, m) :: rest =>
    unmarshalAll env c (Codec.Unmarshal env c w data (.vt m)).1 rest

/-! ## Helper lemmas -/

theorem length_writeBack (old out : List Byte) :
    (writeBack old out).length = old.length := by
  simp only [writeBack, List.length_take, List.length_append, List.length_drop]
  omega

theorem store_len (s : GoSlice) (n : Nat) (out : List Byte) (h : n ≤ s.cap) :
    (s.store n out).elems.length = s.elems.length := by
  simp only [GoSlice.store, GoSlice.arr, GoSlice.len, GoSlice.cap, List.length_take,
    List.length_append, List.length_drop, length_writeBack] at *
  omega

theorem marshalInto_eq {M V E : Type} (env : Env M V E) (w : World M V) (m : M)
    (buf : GoSlice) (size : Int) (h0 : 0 ≤ size) (hc : size ≤ (buf.cap : Int)) :
    marshalInto env w m buf size =
      (w.record (.MarshalToSizedBufferVT m (buf.arr.take size.toNat)),
        .ret (buf.store size.toNat
            (env.msg.MarshalToSizedBufferVT m (buf.arr.take size.toNat)).1,
          (env.msg.MarshalToSizedBufferVT m (buf.arr.take size.toNat)).2.2)) := by
  have hk : size.toNat ≤ buf.arr.length := by
    simp only [GoSlice.arr, GoSlice.cap, List.length_append] at *
    omega
  simp only [marshalInto, GoSlice.upTo, h0, hc, and_self, if_true, GoSlice.len,
    List.length_take, Nat.min_eq_left hk]

theorem marshalInto_panic {M V E : Type} (env : Env M V E) (w : World M V) (m : M)
    (buf : GoSlice) (size : Int) (h : ¬ (0 ≤ size ∧ size ≤ (buf.cap : Int))) :
    marshalInto env w m buf size = (w, .panic) := by
  simp only [marshalInto, GoSlice.upTo, h, if_false]

theorem Marshal_small {M V E : Type} (env : Env M V E) (c : Codec M V E)
    (w : World M V) (m : M) (h0 : 0 ≤ env.msg.SizeVT m)
    (hs : env.msg.SizeVT m < env.bufferPoolingThreshold) :
    Codec.Marshal env c w (.vt m) =
      (afterMarshalCall w m (List.replicate (env.msg.SizeVT m).toNat 0),
        match (env.msg.MarshalToSizedBufferVT m
            (List.replicate (env.msg.SizeVT m).toNat 0)).2.2 with
        | some e => .ret (none, some e)
        | none => .ret (some [.SliceBuffer
            (writeBack (List.replicate (env.msg.SizeVT m).toNat 0)
              (env.msg.MarshalToSizedBufferVT m
                (List.replicate (env.msg.SizeVT m).toNat 0)).1)], none)) := by
  have hm : make (env.msg.SizeVT m)
      = .ret ⟨List.replicate (env.msg.SizeVT m).toNat 0, []⟩ := by
    simp only [make, not_lt.mpr h0, if_false]
  have hc : env.msg.SizeVT m ≤
      ((⟨List.replicate (env.msg.SizeVT m).toNat 0, []⟩ : GoSlice).cap : Int) := by
    simp only [GoSlice.cap, List.length_replicate, List.length_nil, Nat.add_zero]
    omega
  simp only [Codec.Marshal, IsBelowBufferPoolingThreshold, hs, decide_True, if_true, hm,
    marshalInto_eq env _ m _ _ h0 hc]
  simp only [GoSlice.arr, List.append_nil, List.take_replicate, Nat.min_self,
    afterMarshalCall, GoSlice.store, GoSlice.len, List.length_replicate, List.drop_replicate,
    Nat.sub_self, List.replicate_zero]
  cases (env.msg.MarshalToSizedBufferVT m
    (List.replicate (env.msg.SizeVT m).toNat 0)).2.2 with
  | none =>
    simp only [Prod.mk.injEq, true_and, Exec.ret.injEq, and_true, Option.some.injEq,
      List.cons.injEq, Buffer.SliceBuffer.injEq]
    rw [List.take_of_length_le]
    simp [length_writeBack]
  | some e => rfl

theorem Marshal_large {M V E : Type} (env : Env M V E) (c : Codec M V E)
    (w : World M V) (m : M) (h0 : 0 ≤ env.msg.SizeVT m)
    (hl : env.bufferPoolingThreshold ≤ env.msg.SizeVT m)
    (hc : env.msg.SizeVT m ≤ ((borrowed env w m).cap : Int)) :
    Codec.Marshal env c w (.vt m) =
      match (env.msg.MarshalToSizedBufferVT m (borrowedView env w m)).2.2 with
      | some e =>
        ((afterBorrowAndCall env w m).Put w.pool.borrows.length, .ret (none, some e))
      | none =>
        (afterBorrowAndCall env w m,
          .ret (some [NewBuffer w.pool.borrows.length
            ((borrowed env w m).store (env.msg.SizeVT m).toNat
              (env.msg.MarshalToSizedBufferVT m (borrowedView env w m)).1)], none)) := by
  have hc1 : env.msg.SizeVT m ≤
      (((env.defaultBufferPool.Get (w.record (.SizeVT m)).pool
        (env.msg.SizeVT m)).cap : Nat) : Int) := hc
  simp only [Codec.Marshal, IsBelowBufferPoolingThreshold, not_lt.mpr hl, decide_False,
    World.Get, marshalInto_eq env _ m _ _ h0 hc1]
  simp only [World.record, borrowedView, borrowed, afterBorrowAndCall, World.Put,
    List.append_assoc, List.singleton_append]
  cases (env.msg.MarshalToSizedBufferVT m
    (List.take (env.msg.SizeVT m).toNat
      (env.defaultBufferPool.Get w.pool (env.msg.SizeVT m)).arr)).2.2 with
  | none => rfl
  | some e => rfl

theorem Marshal_large_panic {M V E : Type} (env : Env M V E) (c : Codec M V E)
    (w : World M V) (m : M)
    (hl : env.bufferPoolingThreshold ≤ env.msg.SizeVT m)
    (hc : ¬ (0 ≤ env.msg.SizeVT m ∧ env.msg.SizeVT m ≤ ((borrowed env w m).cap : Int))) :
    Codec.Marshal env c w (.vt m) =
      ({ pool := { borrows := w.pool.borrows ++ [env.msg.SizeVT m],
                   releases := w.pool.releases },
         calls := w.calls ++ [.SizeVT m] }, .panic) := by
  have hc1 : ¬ (0 ≤ env.msg.SizeVT m ∧ env.msg.SizeVT m ≤
      (((env.defaultBufferPool.Get (w.record (.SizeVT m)).pool
        (env.msg.SizeVT m)).cap : Nat) : Int)) := hc
  simp only [Codec.Marshal, IsBelowBufferPoolingThreshold, not_lt.mpr hl, decide_False,
    World.Get, marshalInto_panic env _ m _ _ hc1]
  rfl

theorem Marshal_small_panic {M V E : Type} (env : Env M V E) (c : Codec M V E)
    (w : World M V) (m : M) (h0 : env.msg.SizeVT m < 0)
    (hs : env.msg.SizeVT m < env.bufferPoolingThreshold) :
    Codec.Marshal env c w (.vt m) = (w.record (.SizeVT m), .panic) := by
  simp only [Codec.Marshal, IsBelowBufferPoolingThreshold, hs, decide_True, if_true, make,
    h0]

theorem cap_of_len_le {M V E : Type} (env : Env M V E) (w : World M V) (m : M)
    (h : env.msg.SizeVT m ≤ ((borrowed env w m).len : Int)) :
    env.msg.SizeVT m ≤ ((borrowed env w m).cap : Int) := by
  simp only [GoSlice.cap, GoSlice.len] at *
  omega

theorem borrowedView_eq {M V E : Type} (env : Env M V E) (w : World M V) (m : M)
    (h : env.msg.SizeVT m ≤ ((borrowed env w m).len : Int)) :
    borrowedView env w m = (borrowed env w m).elems.take (env.msg.SizeVT m).toNat := by
  have hk : (env.msg.SizeVT m).toNat ≤ (borrowed env w m).elems.length := by
    simp only [GoSlice.len] at h
    omega
  simp only [borrowedView, GoSlice.arr, List.take_append_eq_append_take,
    Nat.sub_eq_zero_of_le hk, List.take_zero, List.append_nil]

theorem length_borrowedView {M V E : Type} (env : Env M V E) (w : World M V) (m : M)
    (h0 : 0 ≤ env.msg.SizeVT m)
    (h : env.msg.SizeVT m ≤ ((borrowed env w m).cap : Int)) :
    ((borrowedView env w m).length : Int) = env.msg.SizeVT m := by
  simp only [borrowedView, GoSlice.arr, GoSlice.cap, List.length_take,
    List.length_append] at *
  omega

theorem Unmarshal_vt {M V E : Type} (env : Env M V E) (c : Codec M V E)
    (w : World M V) (data : BufferSlice) (m : M) :
    Codec.Unmarshal env c w data (.vt m) =
      ({ pool := { borrows := w.pool.borrows ++ [(BufferSlice.Len data : Int)],
                   releases := w.pool.releases ++ [w.pool.borrows.length] },
         calls := w.calls ++ [.UnmarshalVT m (BufferSlice.concat data)] },
        .ret (.vt (env.msg.UnmarshalVT m (BufferSlice.concat data)).1,
          (env.msg.UnmarshalVT m (BufferSlice.concat data)).2)) := rfl

theorem store_elems_exact (s : GoSlice) (out : List Byte) :
    (s.store s.len out).elems = writeBack (s.arr.take s.len) out := by
  have h : (writeBack (s.arr.take s.len) out).length = s.len := by
    simp only [length_writeBack, List.length_take, GoSlice.arr, GoSlice.len,
      List.length_append]
    omega
  simp only [GoSlice.store]
  exact List.take_left' h

theorem unmarshalAll_ledger {M V E : Type} (env : Env M V E) (c : Codec M V E)
    (reqs : List (BufferSlice × M)) :
    ∀ w : World M V,
      (unmarshalAll env c w reqs).pool.borrows.length
        = w.pool.borrows.length + reqs.length ∧
      (unmarshalAll env c w reqs).pool.releases.length
        = w.pool.releases.length + reqs.length ∧
      ∀ t : Nat, t < w.pool.borrows.length →
        (unmarshalAll env c w reqs).pool.releases.count t = w.pool.releases.count t := by
  induction reqs with
  | nil => intro w; exact ⟨rfl, rfl, fun _ _ => rfl⟩
  | cons r rest ih =>
    intro w
    obtain ⟨data, m⟩ := r
    obtain ⟨hb, hr, hc⟩ := ih (Codec.Unmarshal env c w data (.vt m)).1
    simp only [Unmarshal_vt, List.length_append, List.length_singleton] at hb hr hc
    simp only [unmarshalAll, Unmarshal_vt, List.length_cons]
    refine ⟨by omega, by omega, ?_⟩
    intro t ht
    rw [hc t (by omega), List.count_append, List.count_singleton]
    have hne : ¬ (w.pool.borrows.length == t) = true := by
      simp only [beq_iff_eq]; omega
    simp [hne]

theorem Marshal_small_pool {M V E : Type} (env : Env M V E) (c : Codec M V E)
    (w : World M V) (m : M)
    (hs : env.msg.SizeVT m < env.bufferPoolingThreshold) :
    (Codec.Marshal env c w (.vt m)).1.pool = w.pool := by
  by_cases h0 : 0 ≤ env.msg.SizeVT m
  · rw [Marshal_small env c w m h0 hs]; rfl
  · rw [Marshal_small_panic env c w m (not_le.mp h0) hs]; rfl

theorem Marshal_large_borrows {M V E : Type} (env : Env M V E) (c : Codec M V E)
    (w : World M V) (m : M)
    (hl : env.bufferPoolingThreshold ≤ env.msg.SizeVT m) :
    (Codec.Marshal env c w (.vt m)).1.pool.borrows
      = w.pool.borrows ++ [env.msg.SizeVT m] := by
  by_cases hc : 0 ≤ env.msg.SizeVT m ∧ env.msg.SizeVT m ≤ ((borrowed env w m).cap : Int)
  · rw [Marshal_large env c w m hc.1 hl hc.2]
    split <;> rfl
  · rw [Marshal_large_panic env c w m hl hc]

theorem Marshal_other_pool {M V E : Type} (env : Env M V E) (c : Codec M V E)
    (w : World M V) (x : V) :
    (Codec.Marshal env c w (.other x)).1.pool = w.pool := by
  cases hf : c.fallback with
  | none => simp only [Codec.Marshal, hf]
  | some f => simp only [Codec.Marshal, hf, World.record]

/-! ## The claims -/

/-- C10. Exact pre-sizing: for a fast-path message of size `n ≥ 0`, whenever the
pool hands out at least `n` bytes on the large-size path, `Marshal` does not
panic (the slicing is in bounds), and the calls it makes are exactly one size
query followed by exactly one fast-path marshal call, whose buffer has length
exactly `n`: the fresh zeroed allocation on the small-size path, the first `n`
elements of the borrowed buffer on the large-size path, however long the
borrowed buffer is. -/
theorem Marshal_presized {M V E : Type} (env : Env M V E) (c : Codec M V E)
    (w : World M V) (m : M) (h0 : 0 ≤ env.msg.SizeVT m)
    (hp : env.bufferPoolingThreshold ≤ env.msg.SizeVT m →
      env.msg.SizeVT m ≤ ((borrowed env w m).len : Int)) :
    (Codec.Marshal env c w (.vt m)).2 ≠ .panic ∧
    (Codec.Marshal env c w (.vt m)).1.calls =
      w.calls ++ [.SizeVT m, .MarshalToSizedBufferVT m (marshalArg env w m)] ∧
    ((marshalArg env w m).length : Int) = env.msg.SizeVT m ∧
    (env.msg.SizeVT m < env.bufferPoolingThreshold →
      marshalArg env w m = List.replicate (env.msg.SizeVT m).toNat 0) ∧
    (env.bufferPoolingThreshold ≤ env.msg.SizeVT m →
      marshalArg env w m = (borrowed env w m).elems.take (env.msg.SizeVT m).toNat) := by
  by_cases hs : env.msg.SizeVT m < env.bufferPoolingThreshold
  · rw [Marshal_small env c w m h0 hs]
    simp only [marshalArg, hs, if_true, afterMarshalCall, World.record, List.append_assoc,
      List.singleton_append, List.length_replicate, true_and, imp_self, true_implies]
    refine ⟨?_, ?_, ?_⟩
    · split <;> simp
    · omega
    · intro hl; omega
  · have hl := not_lt.mp hs
    have hlen := hp hl
    have hc := cap_of_len_le env w m hlen
    rw [Marshal_large env c w m h0 hl hc]
    simp only [marshalArg, hs, if_false]
    refine ⟨?_, ?_, length_borrowedView env w m h0 hc, ?_, ?_⟩
    · split <;> simp
    · split <;> simp [afterBorrowAndCall, World.Put]
    · intro h; exact h.elim
    · intro _; exact borrowedView_eq env w m hlen

/-! ### Facts about the sample collaborators -/

theorem roomyPool_atLeast : roomyPool.AtLeast := by
  intro st n h0
  simp only [roomyPool, GoSlice.len, List.length_replicate]
  omega

theorem length_bigPayload : (List.replicate 2048 (1 : Byte)).length = 2048 :=
  List.length_replicate _ _

theorem size_raw (pool : BufferPool) (p : List Byte) :
    (sampleEnv pool).msg.SizeVT (.Raw p) = (p.length : Int) := rfl

theorem threshold_sample (pool : BufferPool) :
    (sampleEnv pool).bufferPoolingThreshold = 1024 := rfl

theorem marshal_raw (pool : BufferPool) (p data : List Byte) (h : data.length = p.length) :
    (sampleEnv pool).msg.MarshalToSizedBufferVT (.Raw p) data
      = (p, (p.length : Int), none) := by
  show (if data.length = p.length then (p, (p.length : Int), none)
    else ([], 0, some "size")) = _
  rw [if_pos h]

theorem unmarshal_raw (pool : BufferPool) (q data : List Byte) :
    (sampleEnv pool).msg.UnmarshalVT (.Raw q) data = (.Raw data, none) := rfl

theorem writeBack_full (old out : List Byte) (h : old.length = out.length) :
    writeBack old out = out := by
  simp [writeBack, h]

theorem borrowed_roomy_raw (w : World Sample Unit) (p : List Byte) :
    borrowed (sampleEnv roomyPool) w (.Raw p)
      = ⟨List.replicate (p.length + 1) 0, []⟩ := by
  show roomyPool.Get w.pool (p.length : Int) = _
  simp only [roomyPool, Int.toNat_ofNat]

theorem borrowedView_roomy_raw (w : World Sample Unit) (p : List Byte) :
    borrowedView (sampleEnv roomyPool) w (.Raw p) = List.replicate p.length 0 := by
  simp only [borrowedView, borrowed_roomy_raw, GoSlice.arr, List.append_nil, size_raw,
    Int.toNat_ofNat, List.take_replicate, Nat.min_eq_left (Nat.le_succ _)]

theorem marshalArg_roomy_raw (w : World Sample Unit) (p : List Byte)
    (hl : 1024 ≤ p.length) :
    marshalArg (sampleEnv roomyPool) w (.Raw p) = List.replicate p.length 0 := by
  have h : ¬ ((p.length : Int) < 1024) := by omega
  simp only [marshalArg, size_raw, threshold_sample, h, if_false, borrowedView_roomy_raw]

theorem Marshal_roomy_raw (c : Codec Sample Unit String) (w : World Sample Unit)
    (p : List Byte) (hl : 1024 ≤ p.length) :
    (Codec.Marshal (sampleEnv roomyPool) c w (.vt (.Raw p))).2
      = .ret (some [.pooled w.pool.borrows.length (p ++ [0])], none) := by
  have h0 : 0 ≤ (sampleEnv roomyPool).msg.SizeVT (.Raw p) := by
    rw [size_raw]; omega
  have hT : (sampleEnv roomyPool).bufferPoolingThreshold
      ≤ (sampleEnv roomyPool).msg.SizeVT (.Raw p) := by
    rw [size_raw, threshold_sample]; omega
  have hc : (sampleEnv roomyPool).msg.SizeVT (.Raw p)
      ≤ ((borrowed (sampleEnv roomyPool) w (.Raw p)).cap : Int) := by
    rw [borrowed_roomy_raw, size_raw]
    simp only [GoSlice.cap, List.length_replicate, List.length_nil]
    omega
  rw [Marshal_large (sampleEnv roomyPool) c w (.Raw p) h0 hT hc, borrowedView_roomy_raw,
    marshal_raw roomyPool p _ (List.length_replicate _ _)]
  simp only [borrowed_roomy_raw, NewBuffer, GoSlice.store, GoSlice.arr, GoSlice.len,
    size_raw, Int.toNat_ofNat, List.append_nil, List.take_replicate,
    Nat.min_eq_left (Nat.le_succ _), List.drop_replicate, List.length_replicate,
    writeBack_full _ _ (List.length_replicate _ _)]
  have h1 : p.length + 1 - p.length = 1 := by omega
  have h2 : List.take (p.length + 1) (p ++ List.replicate 1 (0 : Byte))
      = p ++ List.replicate 1 0 :=
    List.take_of_length_le (by simp)
  rw [h1, h2]
  rfl

theorem size_bigRaw (pool : BufferPool) : (sampleEnv pool).msg.SizeVT bigRaw = 2048 := by
  rw [bigRaw, size_raw, length_bigPayload]; rfl

theorem marshalArg_roomy_bigRaw (w : World Sample Unit) :
    ((sampleEnv roomyPool).msg.MarshalToSizedBufferVT bigRaw
      (marshalArg (sampleEnv roomyPool) w bigRaw)).2.2 = none := by
  rw [bigRaw, marshalArg_roomy_raw _ _ (by rw [length_bigPayload]; decide),
    marshal_raw _ _ _ (List.length_replicate _ _)]

theorem borrowed_roomy_bigRaw_len (w : World Sample Unit) :
    (borrowed (sampleEnv roomyPool) w bigRaw).len = 2049 := by
  rw [bigRaw, borrowed_roomy_raw]
  simp only [GoSlice.len, List.length_replicate]

/-- C1, as amended. For a fast-path message of size `n ≥ 0` whose fast-path
marshal call succeeds, and a pool that hands out at least `n` bytes, `Marshal`
returns a single-element Buffer-Slice whose total byte length is exactly `n` on
the small-size path and exactly the length of the borrowed buffer on the
large-size path. -/
theorem Marshal_total_length {M V E : Type} (env : Env M V E) (c : Codec M V E)
    (w : World M V) (m : M) (h0 : 0 ≤ env.msg.SizeVT m)
    (hp : env.bufferPoolingThreshold ≤ env.msg.SizeVT m →
      env.msg.SizeVT m ≤ ((borrowed env w m).len : Int))
    (hok : (env.msg.MarshalToSizedBufferVT m (marshalArg env w m)).2.2 = none) :
    ∃ d : BufferSlice, (Codec.Marshal env c w (.vt m)).2 = .ret (some d, none) ∧
      d.length = 1 ∧
      (env.msg.SizeVT m < env.bufferPoolingThreshold →
        (BufferSlice.Len d : Int) = env.msg.SizeVT m) ∧
      (env.bufferPoolingThreshold ≤ env.msg.SizeVT m →
        BufferSlice.Len d = (borrowed env w m).len) := by
  by_cases hs : env.msg.SizeVT m < env.bufferPoolingThreshold
  · simp only [marshalArg, hs, if_true] at hok
    rw [Marshal_small env c w m h0 hs, hok]
    refine ⟨_, rfl, rfl, ?_, ?_⟩
    · intro _
      simp only [BufferSlice.Len, Buffer.Len, Buffer.ReadOnlyData, List.map_cons,
        List.map_nil, List.sum_cons, List.sum_nil, Nat.add_zero, length_writeBack,
        List.length_replicate]
      omega
    · intro hl; omega
  · have hl := not_lt.mp hs
    have hc := cap_of_len_le env w m (hp hl)
    simp only [marshalArg, hs, if_false] at hok
    rw [Marshal_large env c w m h0 hl hc, hok]
    refine ⟨_, rfl, rfl, ?_, ?_⟩
    · intro h; exact absurd h hs
    · intro _
      have hk : (env.msg.SizeVT m).toNat ≤ (borrowed env w m).cap := by omega
      simp only [BufferSlice.Len, Buffer.Len, Buffer.ReadOnlyData, NewBuffer, List.map_cons,
        List.map_nil, List.sum_cons, List.sum_nil, Nat.add_zero, GoSlice.len,
        store_len _ _ _ hk]

/-- Witness for C1 as amended: the 2048-byte sample message through a pool that
hands out 2049 bytes. -/
theorem Marshal_total_length_witness :
    ∃ d : BufferSlice,
      (Codec.Marshal (sampleEnv roomyPool) ⟨none⟩ World.empty (.vt bigRaw)).2
        = .ret (some d, none) ∧
      d.length = 1 ∧
      ((sampleEnv roomyPool).msg.SizeVT bigRaw < (sampleEnv roomyPool).bufferPoolingThreshold →
        (BufferSlice.Len d : Int) = (sampleEnv roomyPool).msg.SizeVT bigRaw) ∧
      ((sampleEnv roomyPool).bufferPoolingThreshold ≤ (sampleEnv roomyPool).msg.SizeVT bigRaw →
        BufferSlice.Len d = (borrowed (sampleEnv roomyPool) World.empty bigRaw).len) :=
  Marshal_total_length (sampleEnv roomyPool) ⟨none⟩ World.empty bigRaw
    (by rw [size_bigRaw]; decide)
    (by intro _; rw [size_bigRaw, borrowed_roomy_bigRaw_len]; decide)
    (marshalArg_roomy_bigRaw World.empty)

/-- Counterexample to C1 as stated: the pool hands out 2049 bytes for `Get(2048)`,
which satisfies the contract of at least 2048 bytes; the fast-path marshal
succeeds; and the Buffer-Slice `Marshal` returns holds 2049 bytes, not 2048. -/
theorem Marshal_total_length_counterexample :
    roomyPool.AtLeast ∧
    (sampleEnv roomyPool).msg.SizeVT bigRaw = 2048 ∧
    ((sampleEnv roomyPool).msg.MarshalToSizedBufferVT bigRaw
      (marshalArg (sampleEnv roomyPool) World.empty bigRaw)).2.2 = none ∧
    ∃ d : BufferSlice,
      (Codec.Marshal (sampleEnv roomyPool) ⟨none⟩ World.empty (.vt bigRaw)).2
        = .ret (some d, none) ∧
      BufferSlice.Len d = 2049 := by
  refine ⟨roomyPool_atLeast, size_bigRaw _, marshalArg_roomy_bigRaw _,
    [.pooled 0 (List.replicate 2048 1 ++ [0])], ?_, ?_⟩
  · rw [bigRaw]
    exact Marshal_roomy_raw _ _ _ (by rw [length_bigPayload]; decide)
  · simp only [BufferSlice.Len, Buffer.Len, Buffer.ReadOnlyData, List.map_cons, List.map_nil,
      List.sum_cons, List.sum_nil, List.length_append, List.length_replicate,
      List.length_singleton, Nat.add_zero]

/-- Witness for C10: the 2048-byte sample message through a pool that hands out
2049 bytes. -/
theorem Marshal_presized_witness :
    0 ≤ (sampleEnv roomyPool).msg.SizeVT bigRaw ∧
    (Codec.Marshal (sampleEnv roomyPool) ⟨none⟩ World.empty (.vt bigRaw)).2 ≠ .panic ∧
    ((marshalArg (sampleEnv roomyPool) World.empty bigRaw).length : Int)
      = (sampleEnv roomyPool).msg.SizeVT bigRaw :=
  have h := Marshal_presized (sampleEnv roomyPool) ⟨none⟩ World.empty bigRaw
    (by rw [size_bigRaw]; decide)
    (by intro _; rw [size_bigRaw, borrowed_roomy_bigRaw_len]; decide)
  ⟨by rw [size_bigRaw]; decide, h.1, h.2.2.1⟩

theorem concat_singleton (b : Buffer) : BufferSlice.concat [b] = b.ReadOnlyData := by
  simp [BufferSlice.concat]

theorem selfConsistent_raw (pool : BufferPool) (p q : List Byte) :
    SelfConsistent (sampleEnv pool).msg (.Raw p) (.Raw q) := by
  refine ⟨by rw [size_raw]; omega, ?_⟩
  intro data h
  rw [size_raw] at h
  have h1 : data.length = p.length := by omega
  rw [marshal_raw pool p data h1, unmarshal_raw, writeBack_full _ _ h1]
  exact ⟨rfl, rfl⟩

theorem selfConsistent_ping (pool : BufferPool) (a b : Byte) :
    SelfConsistent (sampleEnv pool).msg (.Ping a) (.Ping b) := by
  refine ⟨show (0 : Int) ≤ 2 by decide, ?_⟩
  intro data h
  have h2 : data.length = 2 := by
    have : ((data.length : Int)) = 2 := h
    omega
  match data, h2 with
  | [x, y], _ => exact ⟨rfl, rfl⟩

/-- C2, as amended. Round trip: for a fast-path message `m` whose capability is
self-consistent, provided the pool hands out a buffer of exactly `n` bytes when
`Marshal` borrows on the large-size path, `Marshal` succeeds with a
Buffer-Slice `d`, and `Unmarshal` of `d` into the fresh destination returns no
error and leaves the destination equal to `m`. -/
theorem Marshal_Unmarshal_roundtrip {M V E : Type} (env : Env M V E) (c : Codec M V E)
    (w : World M V) (m fresh : M) (hsc : SelfConsistent env.msg m fresh)
    (hex : env.bufferPoolingThreshold ≤ env.msg.SizeVT m →
      ((borrowed env w m).len : Int) = env.msg.SizeVT m) :
    ∃ d : BufferSlice, (Codec.Marshal env c w (.vt m)).2 = .ret (some d, none) ∧
      (Codec.Unmarshal env c (Codec.Marshal env c w (.vt m)).1 d (.vt fresh)).2
        = .ret (.vt m, none) := by
  obtain ⟨h0, hrt⟩ := hsc
  by_cases hs : env.msg.SizeVT m < env.bufferPoolingThreshold
  · have hlen : ((List.replicate (env.msg.SizeVT m).toNat (0 : Byte)).length : Int)
        = env.msg.SizeVT m := by
      rw [List.length_replicate]; omega
    obtain ⟨hok, hun⟩ := hrt _ hlen
    rw [Marshal_small env c w m h0 hs, hok]
    refine ⟨_, rfl, ?_⟩
    rw [Unmarshal_vt, concat_singleton]
    simp only [Buffer.ReadOnlyData, hun]
  · have hl := not_lt.mp hs
    have hle : env.msg.SizeVT m ≤ ((borrowed env w m).len : Int) := le_of_eq (hex hl).symm
    have hc := cap_of_len_le env w m hle
    obtain ⟨hok, hun⟩ := hrt _ (length_borrowedView env w m h0 hc)
    rw [Marshal_large env c w m h0 hl hc, hok]
    refine ⟨_, rfl, ?_⟩
    have hn : (env.msg.SizeVT m).toNat = (borrowed env w m).len := by
      have := hex hl
      omega
    rw [Unmarshal_vt, concat_singleton]
    simp only [Buffer.ReadOnlyData, NewBuffer]
    rw [hn, store_elems_exact]
    have hv : (borrowed env w m).arr.take (borrowed env w m).len = borrowedView env w m := by
      rw [borrowedView, hn]
    rw [hv, hun]

/-- Witness for C2 as amended, which is the scenario of the specification:
`Ping` with `ID` 1 and size 2 marshals to one transient chunk and unmarshals
back into a fresh `Ping`. -/
theorem Marshal_Unmarshal_roundtrip_witness :
    SelfConsistent (sampleEnv exactPool).msg (.Ping 1) (.Ping 0) ∧
    ∃ d : BufferSlice,
      (Codec.Marshal (sampleEnv exactPool) ⟨none⟩ World.empty (.vt (.Ping 1))).2
        = .ret (some d, none) ∧
      (Codec.Unmarshal (sampleEnv exactPool) ⟨none⟩
        (Codec.Marshal (sampleEnv exactPool) ⟨none⟩ World.empty (.vt (.Ping 1))).1
        d (.vt (.Ping 0))).2 = .ret (.vt (.Ping 1), none) :=
  ⟨selfConsistent_ping exactPool 1 0,
    Marshal_Unmarshal_roundtrip (sampleEnv exactPool) ⟨none⟩ World.empty (.Ping 1) (.Ping 0)
      (selfConsistent_ping exactPool 1 0) (by intro h; exact absurd h (by decide))⟩

/-- The scenario of the specification, evaluated: `Ping` with `ID` 1 marshals
to a single transient chunk of the 2 bytes `08 01` with no pool borrow, and
those 2 bytes unmarshal into a fresh `Ping` as `Ping` with `ID` 1. -/
theorem Ping_scenario :
    Codec.Marshal (sampleEnv exactPool) ⟨none⟩ World.empty (.vt (.Ping 1))
      = ({ pool := ⟨[], []⟩,
           calls := [.SizeVT (.Ping 1), .MarshalToSizedBufferVT (.Ping 1) [0, 0]] },
         .ret (some [.SliceBuffer [8, 1]], none)) ∧
    (Codec.Unmarshal (sampleEnv exactPool) ⟨none⟩ World.empty [.SliceBuffer [8, 1]]
      (.vt (.Ping 0))).2 = .ret (.vt (.Ping 1), none) := by
  constructor <;> rfl

/-- Counterexample to C2 as stated: the 2048-byte sample message is
self-consistent, the pool hands out 2049 bytes for `Get(2048)`, `Marshal`
succeeds with a chunk of 2049 bytes, and `Unmarshal` of it into a fresh
destination does not give the message back. -/
theorem Marshal_Unmarshal_roundtrip_counterexample :
    SelfConsistent (sampleEnv roomyPool).msg bigRaw (.Raw []) ∧
    roomyPool.AtLeast ∧
    ∃ d : BufferSlice,
      (Codec.Marshal (sampleEnv roomyPool) ⟨none⟩ World.empty (.vt bigRaw)).2
        = .ret (some d, none) ∧
      (Codec.Unmarshal (sampleEnv roomyPool) ⟨none⟩
        (Codec.Marshal (sampleEnv roomyPool) ⟨none⟩ World.empty (.vt bigRaw)).1
        d (.vt (.Raw []))).2 ≠ .ret (.vt bigRaw, none) := by
  refine ⟨selfConsistent_raw _ _ _, roomyPool_atLeast,
    [.pooled 0 (List.replicate 2048 1 ++ [0])], ?_, ?_⟩
  · rw [bigRaw]
    exact Marshal_roomy_raw _ _ _ (by rw [length_bigPayload]; decide)
  · rw [Unmarshal_vt, concat_singleton]
    simp only [Buffer.ReadOnlyData, unmarshal_raw, bigRaw]
    intro h
    simp only [Exec.ret.injEq, Prod.mk.injEq, GoAny.vt.injEq, Sample.Raw.injEq,
      and_true] at h
    have hlen := congrArg List.length h
    simp only [List.length_append, List.length_replicate, List.length_singleton] at hlen
    omega

/-- C3. Fallback delegation: for a value without the fast-path capability and a
codec holding a fallback, `Marshal` returns exactly the pair the fallback
`Marshal` returns for that value, `Unmarshal` hands the fallback `Unmarshal`
the unmodified Buffer-Slice and returns exactly its error and its effect on
the value, each after exactly one call to the fallback, and neither touches
the pool. -/
theorem fallback_delegation {M V E : Type} (env : Env M V E) (f : CodecV2 M V E)
    (w : World M V) (data : BufferSlice) (x : V) :
    Codec.Marshal env ⟨some f⟩ w (.other x)
      = ({ pool := w.pool, calls := w.calls ++ [.fallbackMarshal (.other x)] },
          .ret (f.Marshal (.other x))) ∧
    Codec.Unmarshal env ⟨some f⟩ w data (.other x)
      = ({ pool := w.pool, calls := w.calls ++ [.fallbackUnmarshal data (.other x)] },
          .ret (f.Unmarshal data (.other x))) :=
  ⟨rfl, rfl⟩

/-- C8. Unmarshal fast path: for a destination with the fast-path capability and
any Buffer-Slice, `Unmarshal` calls the fast-path unmarshal function exactly
once, on the concatenation of the bytes of the chunks in order, returns exactly
what that call reports, and does the same whatever the fallback is, without a
call to it. -/
theorem Unmarshal_fast_path {M V E : Type} (env : Env M V E) (c : Codec M V E)
    (w : World M V) (data : BufferSlice) (m : M) :
    (Codec.Unmarshal env c w data (.vt m)).2
      = .ret (.vt (env.msg.UnmarshalVT m (BufferSlice.concat data)).1,
          (env.msg.UnmarshalVT m (BufferSlice.concat data)).2) ∧
    (Codec.Unmarshal env c w data (.vt m)).1.calls
      = w.calls ++ [.UnmarshalVT m (BufferSlice.concat data)] ∧
    ∀ c2 : Codec M V E,
      Codec.Unmarshal env c2 w data (.vt m) = Codec.Unmarshal env c w data (.vt m) :=
  ⟨rfl, rfl, fun _ => rfl⟩

/-- C6. Unmarshal release: for every Buffer-Slice and fast-path destination, the
one buffer `Unmarshal` borrows to materialize the input is released exactly
once before it returns, whatever the fast-path unmarshal reports, and no
buffer borrowed earlier is released; so over any run of fast-path `Unmarshal`
calls the pool sees as many releases as borrows, and the buffers borrowed
before the run have the releases they had. -/
theorem Unmarshal_release {M V E : Type} (env : Env M V E) (c : Codec M V E)
    (w : World M V) (data : BufferSlice) (m : M) (reqs : List (BufferSlice × M)) :
    (Codec.Unmarshal env c w data (.vt m)).1.pool
      = { borrows := w.pool.borrows ++ [(BufferSlice.Len data : Int)],
          releases := w.pool.releases ++ [w.pool.borrows.length] } ∧
    (∀ t : Nat, t < w.pool.borrows.length →
      (Codec.Unmarshal env c w data (.vt m)).1.pool.releases.count t
        = w.pool.releases.count t) ∧
    (unmarshalAll env c w reqs).pool.borrows.length - w.pool.borrows.length
      = (unmarshalAll env c w reqs).pool.releases.length - w.pool.releases.length ∧
    (w.pool.borrows.length = w.pool.releases.length →
      (unmarshalAll env c w reqs).pool.borrows.length
        = (unmarshalAll env c w reqs).pool.releases.length) ∧
    (∀ t : Nat, t < w.pool.borrows.length →
      (unmarshalAll env c w reqs).pool.releases.count t = w.pool.releases.count t) := by
  obtain ⟨hb, hr, hc⟩ := unmarshalAll_ledger env c reqs w
  obtain ⟨_, _, hc1⟩ := unmarshalAll_ledger env c [(data, m)] w
  refine ⟨rfl, hc1, by omega, by omega, hc⟩

/-- Witness for C6: two fast-path `Unmarshal` calls from the empty world, one
that succeeds and one whose fast-path unmarshal fails, leave the pool with two
borrows and two releases. -/
theorem Unmarshal_release_witness :
    (World.empty : World Sample Unit).pool.borrows.length
      = (World.empty : World Sample Unit).pool.releases.length ∧
    (unmarshalAll (sampleEnv exactPool) ⟨none⟩ World.empty
        [([.SliceBuffer [8], .SliceBuffer [1]], .Ping 0), ([.SliceBuffer [9]], .Ping 0)]
      ).pool.borrows.length
      = (unmarshalAll (sampleEnv exactPool) ⟨none⟩ World.empty
        [([.SliceBuffer [8], .SliceBuffer [1]], .Ping 0), ([.SliceBuffer [9]], .Ping 0)]
      ).pool.releases.length :=
  ⟨rfl, (Unmarshal_release (sampleEnv exactPool) ⟨none⟩ World.empty [] (.Ping 0)
    [([.SliceBuffer [8], .SliceBuffer [1]], .Ping 0), ([.SliceBuffer [9]], .Ping 0)]).2.2.2.1
    rfl⟩

/-- C9. Missing fallback: `init` with nothing registered under the name builds,
without any check, a codec whose fallback is nil; with it every `Marshal` and
every `Unmarshal` of a value without the fast-path capability panics, and
every `Marshal` and `Unmarshal` of a value with the capability gives what it
gives with any fallback. -/
theorem missing_fallback {M V E : Type} (env : Env M V E) (w : World M V)
    (data : BufferSlice) :
    (init (fun _ => none) : Codec M V E) = ⟨none⟩ ∧
    (∀ x : V, Codec.Marshal env (init (fun _ => none)) w (.other x) = (w, .panic)) ∧
    (∀ x : V, Codec.Unmarshal env (init (fun _ => none)) w data (.other x)
      = (w, .panic)) ∧
    (∀ (f : CodecV2 M V E) (m : M),
      Codec.Marshal env (init (fun _ => none)) w (.vt m)
        = Codec.Marshal env ⟨some f⟩ w (.vt m)) ∧
    (∀ (f : CodecV2 M V E) (m : M),
      Codec.Unmarshal env (init (fun _ => none)) w data (.vt m)
        = Codec.Unmarshal env ⟨some f⟩ w data (.vt m)) :=
  ⟨rfl, fun _ => rfl, fun _ => rfl, fun _ _ => rfl, fun _ _ => rfl⟩

/-- C4. Threshold boundary: for a fast-path message of size `n` below the
pooling threshold, `Marshal` leaves the pool untouched and, when `n ≥ 0` and
the fast-path marshal call succeeds, returns one transient buffer of exactly
`n` bytes; for `n` at or above the threshold, `Marshal` borrows exactly one
buffer, asking for `n` bytes, and, when the pool hands out at least `n` bytes
and the fast-path marshal call succeeds, the buffer it returns is the
pool-sourced one of that borrow.  A borrow happens only for a fast-path
message at or above the threshold. -/
theorem Marshal_threshold_boundary {M V E : Type} (env : Env M V E) (c : Codec M V E)
    (w : World M V) (m : M) :
    (env.msg.SizeVT m < env.bufferPoolingThreshold →
      (Codec.Marshal env c w (.vt m)).1.pool = w.pool ∧
      (0 ≤ env.msg.SizeVT m →
        (env.msg.MarshalToSizedBufferVT m (marshalArg env w m)).2.2 = none →
        ∃ data : List Byte,
          (Codec.Marshal env c w (.vt m)).2 = .ret (some [.SliceBuffer data], none) ∧
          (data.length : Int) = env.msg.SizeVT m)) ∧
    (env.bufferPoolingThreshold ≤ env.msg.SizeVT m →
      (Codec.Marshal env c w (.vt m)).1.pool.borrows
        = w.pool.borrows ++ [env.msg.SizeVT m] ∧
      (0 ≤ env.msg.SizeVT m →
        env.msg.SizeVT m ≤ ((borrowed env w m).len : Int) →
        (env.msg.MarshalToSizedBufferVT m (marshalArg env w m)).2.2 = none →
        ∃ data : List Byte,
          (Codec.Marshal env c w (.vt m)).2
            = .ret (some [.pooled w.pool.borrows.length data], none))) ∧
    (∀ v : GoAny M V, (Codec.Marshal env c w v).1.pool.borrows ≠ w.pool.borrows →
      ∃ m1 : M, v = .vt m1 ∧ env.bufferPoolingThreshold ≤ env.msg.SizeVT m1) := by
  refine ⟨?_, ?_, ?_⟩
  · intro hs
    refine ⟨Marshal_small_pool env c w m hs, ?_⟩
    intro h0 hok
    simp only [marshalArg, hs, if_true] at hok
    rw [Marshal_small env c w m h0 hs, hok]
    refine ⟨_, rfl, ?_⟩
    rw [length_writeBack, List.length_replicate]
    omega
  · intro hl
    refine ⟨Marshal_large_borrows env c w m hl, ?_⟩
    intro h0 hlen hok
    simp only [marshalArg, not_lt.mpr hl, if_false] at hok
    rw [Marshal_large env c w m h0 hl (cap_of_len_le env w m hlen), hok]
    exact ⟨_, rfl⟩
  · intro v hv
    cases v with
    | other x => exact absurd (congrArg PoolState.borrows (Marshal_other_pool env c w x)) hv
    | vt m1 =>
      refine ⟨m1, rfl, ?_⟩
      by_contra hs
      exact hv (congrArg PoolState.borrows (Marshal_small_pool env c w m1 (not_le.mp hs)))

/-- Witness for C4: the 2-byte `Ping` stays off the pool and comes back as a
transient 2-byte buffer; the 2048-byte sample message, above the threshold, is
borrowed for and comes back pool-sourced. -/
theorem Marshal_threshold_boundary_witness :
    ((Codec.Marshal (sampleEnv exactPool) ⟨none⟩ World.empty (.vt (.Ping 1))).1.pool
        = (World.empty : World Sample Unit).pool ∧
      ∃ data : List Byte,
        (Codec.Marshal (sampleEnv exactPool) ⟨none⟩ World.empty (.vt (.Ping 1))).2
          = .ret (some [.SliceBuffer data], none) ∧
        (data.length : Int) = (sampleEnv exactPool).msg.SizeVT (.Ping 1)) ∧
    ((Codec.Marshal (sampleEnv roomyPool) ⟨none⟩ World.empty (.vt bigRaw)).1.pool.borrows
        = (World.empty : World Sample Unit).pool.borrows
          ++ [(sampleEnv roomyPool).msg.SizeVT bigRaw] ∧
      ∃ data : List Byte,
        (Codec.Marshal (sampleEnv roomyPool) ⟨none⟩ World.empty (.vt bigRaw)).2
          = .ret (some [.pooled (World.empty : World Sample Unit).pool.borrows.length data],
              none)) :=
  have hsmall := (Marshal_threshold_boundary (sampleEnv exactPool) ⟨none⟩ World.empty
    (.Ping 1)).1 (by decide)
  have hlarge := (Marshal_threshold_boundary (sampleEnv roomyPool) ⟨none⟩ World.empty
    bigRaw).2.1 (by rw [size_bigRaw]; decide)
  ⟨⟨hsmall.1, hsmall.2 (by decide) rfl⟩,
    ⟨hlarge.1, hlarge.2 (by rw [size_bigRaw]; decide)
      (by rw [size_bigRaw, borrowed_roomy_bigRaw_len]; decide)
      (marshalArg_roomy_bigRaw World.empty)⟩⟩

/-- C5. Marshal ownership, over the explicit pool state: every call of `Marshal`
borrows at most one buffer; a value without the capability and a message below
the threshold borrow none and release none; for a message of size `n ≥ 0` at
or above the threshold, with a pool that hands out at least `n` bytes, exactly
one buffer is borrowed and exactly one of two things happens to it: `Marshal`
succeeds, returns it wrapped as the single element of the Buffer-Slice and
releases nothing, or the fast-path marshal fails, `Marshal` returns no
Buffer-Slice and releases that buffer exactly once. -/
theorem Marshal_ownership {M V E : Type} (env : Env M V E) (c : Codec M V E)
    (w : World M V) (v : GoAny M V) :
    (∃ new : List Int,
      (Codec.Marshal env c w v).1.pool.borrows = w.pool.borrows ++ new ∧
      new.length ≤ 1) ∧
    (∀ x : V, v = .other x → (Codec.Marshal env c w v).1.pool = w.pool) ∧
    (∀ m : M, v = .vt m → env.msg.SizeVT m < env.bufferPoolingThreshold →
      (Codec.Marshal env c w v).1.pool = w.pool) ∧
    (∀ m : M, v = .vt m → env.bufferPoolingThreshold ≤ env.msg.SizeVT m →
      0 ≤ env.msg.SizeVT m → env.msg.SizeVT m ≤ ((borrowed env w m).len : Int) →
      (Codec.Marshal env c w v).1.pool.borrows = w.pool.borrows ++ [env.msg.SizeVT m] ∧
      Xor'
        (∃ data : List Byte,
          (Codec.Marshal env c w v).2
            = .ret (some [.pooled w.pool.borrows.length data], none) ∧
          (Codec.Marshal env c w v).1.pool.releases = w.pool.releases)
        (∃ e : E,
          (Codec.Marshal env c w v).2 = .ret (none, some e) ∧
          (Codec.Marshal env c w v).1.pool.releases
            = w.pool.releases ++ [w.pool.borrows.length])) := by
  refine ⟨?_, ?_, ?_, ?_⟩
  · cases v with
    | other x =>
      exact ⟨[], by rw [Marshal_other_pool, List.append_nil], Nat.zero_le _⟩
    | vt m =>
      by_cases hs : env.msg.SizeVT m < env.bufferPoolingThreshold
      · exact ⟨[], by rw [Marshal_small_pool env c w m hs, List.append_nil], Nat.zero_le _⟩
      · exact ⟨[env.msg.SizeVT m], Marshal_large_borrows env c w m (not_lt.mp hs),
          Nat.le_refl _⟩
  · intro x hx
    rw [hx]; exact Marshal_other_pool env c w x
  · intro m hm hs
    rw [hm]; exact Marshal_small_pool env c w m hs
  · intro m hm hl h0 hlen
    subst hm
    refine ⟨Marshal_large_borrows env c w m hl, ?_⟩
    rw [Marshal_large env c w m h0 hl (cap_of_len_le env w m hlen)]
    cases (env.msg.MarshalToSizedBufferVT m (borrowedView env w m)).2.2 with
    | none =>
      refine Or.inl ⟨⟨_, rfl, rfl⟩, ?_⟩
      rintro ⟨e, he, _⟩
      simp at he
    | some e =>
      refine Or.inr ⟨⟨e, rfl, rfl⟩, ?_⟩
      rintro ⟨data, hd, _⟩
      simp at hd

/-- C7. Marshal error propagation: for a fast-path message of size `n ≥ 0` whose
fast-path marshal call fails with error `e`, with a pool that hands out at
least `n` bytes, `Marshal` returns exactly `e` and no Buffer-Slice, makes no
call but the size query and that marshal call, gives the same whatever the
fallback is, and releases a buffer exactly when it borrowed one: below the
threshold the pool is untouched, at or above it the one buffer borrowed is the
one buffer released. -/
theorem Marshal_error_propagation {M V E : Type} (env : Env M V E) (c : Codec M V E)
    (w : World M V) (m : M) (e : E) (h0 : 0 ≤ env.msg.SizeVT m)
    (hp : env.bufferPoolingThreshold ≤ env.msg.SizeVT m →
      env.msg.SizeVT m ≤ ((borrowed env w m).len : Int))
    (hfail : (env.msg.MarshalToSizedBufferVT m (marshalArg env w m)).2.2 = some e) :
    (Codec.Marshal env c w (.vt m)).2 = .ret (none, some e) ∧
    (Codec.Marshal env c w (.vt m)).1.calls
      = w.calls ++ [.SizeVT m, .MarshalToSizedBufferVT m (marshalArg env w m)] ∧
    (∀ c2 : Codec M V E,
      Codec.Marshal env c2 w (.vt m) = Codec.Marshal env c w (.vt m)) ∧
    (env.msg.SizeVT m < env.bufferPoolingThreshold →
      (Codec.Marshal env c w (.vt m)).1.pool = w.pool) ∧
    (env.bufferPoolingThreshold ≤ env.msg.SizeVT m →
      (Codec.Marshal env c w (.vt m)).1.pool
        = { borrows := w.pool.borrows ++ [env.msg.SizeVT m],
            releases := w.pool.releases ++ [w.pool.borrows.length] }) := by
  by_cases hs : env.msg.SizeVT m < env.bufferPoolingThreshold
  · have hfail1 := hfail
    simp only [marshalArg, hs, if_true] at hfail1
    refine ⟨?_, ?_, ?_, ?_, ?_⟩
    · rw [Marshal_small env c w m h0 hs, hfail1]
    · rw [Marshal_small env c w m h0 hs]
      simp only [marshalArg, hs, if_true, afterMarshalCall, World.record, List.append_assoc,
        List.singleton_append]
    · intro c2
      rw [Marshal_small env c w m h0 hs, Marshal_small env c2 w m h0 hs]
    · intro _; exact Marshal_small_pool env c w m hs
    · intro hl; omega
  · have hl := not_lt.mp hs
    have hc := cap_of_len_le env w m (hp hl)
    have hfail1 := hfail
    simp only [marshalArg, hs, if_false] at hfail1
    refine ⟨?_, ?_, ?_, ?_, ?_⟩
    · rw [Marshal_large env c w m h0 hl hc, hfail1]
    · rw [Marshal_large env c w m h0 hl hc, hfail1]
      simp only [marshalArg, hs, if_false, afterBorrowAndCall, World.Put]
    · intro c2
      rw [Marshal_large env c w m h0 hl hc, Marshal_large env c2 w m h0 hl hc]
    · intro h; exact absurd h hs
    · intro _
      rw [Marshal_large env c w m h0 hl hc, hfail1]
      rfl

theorem size_broken (pool : BufferPool) (n : Nat) :
    (sampleEnv pool).msg.SizeVT (.Broken n) = (n : Int) := rfl

theorem borrowed_roomy_broken_len (w : World Sample Unit) (n : Nat) :
    (borrowed (sampleEnv roomyPool) w (.Broken n)).len = n + 1 := by
  show (roomyPool.Get w.pool (n : Int)).len = n + 1
  simp only [roomyPool, GoSlice.len, List.length_replicate, Int.toNat_ofNat]

/-- Witness for C5: the 2048-byte sample message, above the threshold, through a
pool that hands out 2049 bytes. -/
theorem Marshal_ownership_witness :
    (Codec.Marshal (sampleEnv roomyPool) ⟨none⟩ World.empty (.vt bigRaw)).1.pool.borrows
      = (World.empty : World Sample Unit).pool.borrows
        ++ [(sampleEnv roomyPool).msg.SizeVT bigRaw] ∧
    Xor'
      (∃ data : List Byte,
        (Codec.Marshal (sampleEnv roomyPool) ⟨none⟩ World.empty (.vt bigRaw)).2
          = .ret (some [.pooled (World.empty : World Sample Unit).pool.borrows.length data],
              none) ∧
        (Codec.Marshal (sampleEnv roomyPool) ⟨none⟩ World.empty (.vt bigRaw)).1.pool.releases
          = (World.empty : World Sample Unit).pool.releases)
      (∃ e : String,
        (Codec.Marshal (sampleEnv roomyPool) ⟨none⟩ World.empty (.vt bigRaw)).2
          = .ret (none, some e) ∧
        (Codec.Marshal (sampleEnv roomyPool) ⟨none⟩ World.empty (.vt bigRaw)).1.pool.releases
          = (World.empty : World Sample Unit).pool.releases
            ++ [(World.empty : World Sample Unit).pool.borrows.length]) :=
  (Marshal_ownership (sampleEnv roomyPool) ⟨none⟩ World.empty (.vt bigRaw)).2.2.2
    bigRaw rfl (by rw [size_bigRaw]; decide) (by rw [size_bigRaw]; decide)
    (by rw [size_bigRaw, borrowed_roomy_bigRaw_len]; decide)

/-- Witness for C7: a 2000-byte sample message whose marshal always fails,
through a pool that hands out 2001 bytes: the error comes back as it is, and
the one borrowed buffer is released. -/
theorem Marshal_error_propagation_witness :
    (0 : Int) ≤ (sampleEnv roomyPool).msg.SizeVT (.Broken 2000) ∧
    (Codec.Marshal (sampleEnv roomyPool) ⟨none⟩ World.empty (.vt (.Broken 2000))).2
      = .ret (none, some "boom") ∧
    (Codec.Marshal (sampleEnv roomyPool) ⟨none⟩ World.empty (.vt (.Broken 2000))).1.pool
      = { borrows := [2000], releases := [0] } :=
  have h := Marshal_error_propagation (sampleEnv roomyPool) ⟨none⟩ World.empty
    (.Broken 2000) "boom" (by rw [size_broken]; decide)
    (by intro _; rw [size_broken, borrowed_roomy_broken_len]; decide)
    rfl
  ⟨by rw [size_broken]; decide, h.1, h.2.2.2.2 (by rw [size_broken]; decide)⟩

end VTCodec
